import Mathlib

/-!
Shallow embedding of `src/repolib/util.py` (RepoLib utility module).

Python strings are modelled as Lean `String` (character lists via `.data`);
Python dicts (source entries, mapping field names to string values) are
modelled as ordered association lists `List (String × String)` — insertion
order is list order and Python's key-uniqueness is carried as a `Nodup`
hypothesis where a proof needs it. Python whitespace handling is modelled
over ASCII whitespace.
-/

namespace Repolib

/-- ASCII whitespace, the characters Python's `str.split()` / `str.strip()`
split and strip on (restricted to ASCII). -/
def isSpace (c : Char) : Bool :=
  c == ' ' || c == '\t' || c == '\n' || c == '\r' || c == '\x0b' || c == '\x0c'

/-- Python `str.strip(chars)`: drop the longest prefix and suffix of
characters satisfying `p`. -/
def pystrip (p : Char → Bool) (l : List Char) : List Char :=
  ((l.dropWhile p).reverse.dropWhile p).reverse

/-- Worker for `tokens`: `acc` holds the characters of the current
(unfinished) token in reverse. -/
def tokensAux : List Char → List Char → List String
  | [], acc => if acc.isEmpty then [] else [String.mk acc.reverse]
  | c :: rest, acc =>
    if isSpace c then
      if acc.isEmpty then tokensAux rest []
      else String.mk acc.reverse :: tokensAux rest []
    else tokensAux rest (c :: acc)

/-- Python `str.split()` with no argument: the maximal runs of
non-whitespace characters, in order, with no empty tokens. -/
def tokens (l : List Char) : List String := tokensAux l []

/-- Python `' '.join(ts)`. -/
def joinSpace : List String → String
  | [] => ""
  | t :: rest => rest.foldl (fun acc x => acc ++ " " ++ x) t

/-- The token-deduplication loop of `combine_sources`:
`newvals = []; for val in vals: if val not in newvals: newvals.append(val)`. -/
def dedupTokens (vals : List String) : List String :=
  vals.foldl (fun newvals val => if newvals.contains val then newvals else newvals ++ [val]) []

/-- `' '.join` of the deduplicated whitespace-split of a field value:
the body of the deduplication loops at the end of `combine_sources`
(`source[key].strip().split()`, dedup, rejoin). -/
def dedup_value (s : String) : String :=
  joinSpace (dedupTokens (tokens (pystrip isSpace s.data)))

/-! ## Source entries (Python dicts field-name → string value) -/

/-- A source entry: an ordered field-name → value mapping. -/
abbrev Entry := List (String × String)

/-- The keys of an entry, in insertion order (`for key in source`). -/
def ekeys (e : Entry) : List String := e.map Prod.fst

/-- Python `key in source`. -/
def emem (key : String) (e : Entry) : Bool := (ekeys e).contains key

/-- Python `source[key]` (total here: `""` when absent; the code only
subscripts keys it has membership-checked). -/
def eget (e : Entry) (key : String) : String :=
  (((e.find? (fun kv => kv.1 == key)).map Prod.snd)).getD ""

/-- Python `source[key] = v` for a key already present: replace the value,
keep the position. -/
def eset (e : Entry) (key v : String) : Entry :=
  e.map (fun kv => if kv.1 == key then (kv.1, v) else kv)

/-- `compare_sources(source1, source2, excl_keys)` from `util.py`:
two loops with early `return False`, rendered as `List.all` over the keys. -/
def compare_sources (source1 source2 : Entry) (excl_keys : List String) : Bool :=
  ((ekeys source1).all fun key =>
    if excl_keys.contains key then true
    else if emem key source2 then eget source1 key == eget source2 key
    else false) &&
  ((ekeys source2).all fun key =>
    if excl_keys.contains key then true
    else if emem key source1 then eget source1 key == eget source2 key
    else false)

/-- The result type of `find_differences_sources`: an ordered mapping
field → (value-in-source1, value-in-source2). -/
abbrev Diff := List (String × (String × String))

/-- Python `differing_keys[key] = v`: overwrite in place if the key exists,
else append. -/
def dset (d : Diff) (key : String) (v : String × String) : Diff :=
  if d.any (fun kv => kv.1 == key) then
    d.map (fun kv => if kv.1 == key then (key, v) else kv)
  else d ++ [(key, v)]

/-- `find_differences_sources(source1, source2, excl_keys)` from `util.py`.
The first loop's `differing_keys[key] = (source1[key], '')` is not under an
`else`, so it also runs (and overwrites) in the differing-values case,
exactly as in the source. -/
def find_differences_sources (source1 source2 : Entry) (excl_keys : List String) : Diff :=
  let d1 := (ekeys source1).foldl (fun acc key =>
    if excl_keys.contains key then acc
    else if emem key source2 && (eget source1 key == eget source2 key) then acc
    else
      let acc := if emem key source2 then dset acc key (eget source1 key, eget source2 key)
        else acc
      dset acc key (eget source1 key, "")) []
  (ekeys source2).foldl (fun acc key =>
    if excl_keys.contains key then acc
    else if emem key source1 && (eget source1 key == eget source2 key) then acc
    else dset acc key ("", eget source2 key)) d1

/-- The key tuple `('X-Repolib-Name', 'X-Repolib-ID', 'Enabled', 'Types')`
that the two appending loops of `combine_sources` skip. -/
def merge_skip : List String := ["X-Repolib-Name", "X-Repolib-ID", "Enabled", "Types"]

/-- `combine_sources(source1, source2)` from `util.py`. The Python function
mutates both arguments in place; here the pair of final states is returned
(`source1` first). The two appending loops run in source order, then both
entries have every value deduplicated. -/
def combine_sources (source1 source2 : Entry) : Entry × Entry :=
  let s1 := (ekeys source1).foldl (fun s1 key =>
    if merge_skip.contains key then s1
    else if emem key source2 then eset s1 key (eget s1 key ++ " " ++ eget source2 key)
    else s1) source1
  let s1 := (ekeys source2).foldl (fun s1 key =>
    if merge_skip.contains key then s1
    else if emem key s1 then eset s1 key (eget s1 key ++ " " ++ eget source2 key)
    else s1) s1
  let s1 := s1.map (fun kv => (kv.1, dedup_value kv.2))
  let s2 := source2.map (fun kv => (kv.1, dedup_value kv.2))
  (s1, s2)

/-! ## URL parsing (the fragment of CPython 3.11 `urllib.parse.urlparse`
that `url_validator` consumes)

Modelled for ASCII inputs; of the parse-time `ValueError`s, the mismatched
IPv6 bracket in the netloc is modelled (`none` = the exception), the full
bracketed-host validation of newer CPython is not. -/

/-- The characters CPython's `urlsplit` accepts inside a scheme. -/
def scheme_chars (c : Char) : Bool :=
  c.isAlpha || c.isDigit || c == '+' || c == '-' || c == '.'

/-- `_WHATWG_C0_CONTROL_OR_SPACE`: code points 0x00–0x20. -/
def isC0ControlOrSpace (c : Char) : Bool := c.val ≤ 32

/-- The schemes for which `urlparse` splits `;params` off the path. -/
def uses_params : List String :=
  ["", "ftp", "hdl", "prospero", "http", "imap", "https", "shttp", "rtsp",
   "rtspu", "sip", "sips", "mms", "sftp", "tel"]

/-- Python `s.split(sep, 1)` when `sep` occurs: the parts before and after
the first occurrence; `none` when it does not occur. -/
def partitionFirst (sep : Char) (l : List Char) : Option (List Char × List Char) :=
  if l.contains sep then
    some (l.takeWhile (fun c => c != sep), (l.dropWhile (fun c => c != sep)).tail)
  else none

/-- The result of `urllib.parse.urlparse`. -/
structure ParseResult where
  scheme : String
  netloc : String
  path : String
  params : String
  query : String
  fragment : String
deriving DecidableEq

/-- CPython `_splitparams`: split `;params` off the last path segment. -/
def splitparams (l : List Char) : List Char × List Char :=
  if l.contains '/' then
    let seg := (l.reverse.takeWhile (fun c => c != '/')).reverse
    if seg.contains ';' then
      (l.take (l.length - seg.length) ++ seg.takeWhile (fun c => c != ';'),
       (seg.dropWhile (fun c => c != ';')).tail)
    else (l, [])
  else
    match partitionFirst ';' l with
    | some (a, b) => (a, b)
    | none => (l, [])

/-- The fragment/query/params splits at the end of `urlsplit`/`urlparse`. -/
def urlparseFinish (scheme netloc url : List Char) : ParseResult :=
  let fq := match partitionFirst '#' url with
    | some (a, b) => (a, b)
    | none => (url, [])
  let qu := match partitionFirst '?' fq.1 with
    | some (a, b) => (a, b)
    | none => (fq.1, [])
  let pp :=
    if uses_params.contains (String.mk scheme) && qu.1.contains ';' then splitparams qu.1
    else (qu.1, [])
  ⟨String.mk scheme, String.mk netloc, String.mk pp.1, String.mk pp.2,
   String.mk qu.2, String.mk fq.2⟩

/-- `urllib.parse.urlparse` (CPython 3.11, ASCII): left-strip C0
controls/space, drop tab/CR/LF, split off a scheme (first char an ASCII
letter, all chars in `scheme_chars`, lowercased), a `//netloc` (up to
`/?#`, with the mismatched-bracket `ValueError` as `none`), then fragment,
query and params. -/
def urlparse (urlStr : String) : Option ParseResult :=
  let url0 := (urlStr.data.dropWhile isC0ControlOrSpace).filter
      (fun c => !(c == '\t' || c == '\r' || c == '\n'))
  let sp := match partitionFirst ':' url0 with
    | some (pre, post) =>
      if !pre.isEmpty && (pre.headD ' ').isAlpha && pre.all scheme_chars then
        (pre.map Char.toLower, post)
      else ([], url0)
    | none => ([], url0)
  let notDelim := fun (c : Char) => !(c == '/' || c == '?' || c == '#')
  if ['/', '/'].isPrefixOf sp.2 then
    let rest := sp.2.drop 2
    let netloc := rest.takeWhile notDelim
    if (netloc.contains '[') != (netloc.contains ']') then none
    else some (urlparseFinish sp.1 netloc (rest.dropWhile notDelim))
  else some (urlparseFinish sp.1 [] sp.2)

/-- `url_validator(url)` from `util.py`: the bare `except` around the body
catches the parse `ValueError` (the `none` case) and returns `False`;
`if not result.scheme` tests string emptiness, `all([..])` truthiness of
both parts. -/
def url_validator (url : String) : Bool :=
  match urlparse url with
  | none => false
  | some result =>
    if result.scheme.data.isEmpty then false
    else if result.scheme == "x-repolib-name" then false
    else if !result.netloc.data.isEmpty then
      !result.scheme.data.isEmpty && !result.netloc.data.isEmpty
    else if !result.path.data.isEmpty then
      !result.scheme.data.isEmpty && !result.path.data.isEmpty
    else false

/-- `validate_debline(valid)` from `util.py`. The Python function has no
`return` on two fall-through paths (a `deb` line with no URL-valid token, a
`ppa:` line without `/`) and there returns `None`; the embedding returns
`Option Bool`, with `none` for Python's `None`. `startswith`, `endswith`,
`replace('#', '')`, `strip()`, `split()` and `in` are modelled on the
character list. -/
def validate_debline (validIn : String) : Option Bool :=
  let valid := if ['#'].isPrefixOf validIn.data then
      String.mk (pystrip isSpace (validIn.data.filter (fun c => !(c == '#'))))
    else validIn
  if ("deb".data).isPrefixOf valid.data then
    if (tokens valid.data).any (fun word => url_validator word) then some true else none
  else if ("ppa:".data).isPrefixOf valid.data then
    if valid.data.contains '/' then some true else none
  else
    if (".flatpakrepo".data).isSuffixOf valid.data then some false
    else if (tokens valid.data).length == 1 then some (url_validator valid)
    else some false

/-- Classification of a debline per spec §4.4 (the refinement target the
amended C7 compares `validate_debline` against, with Python's falsy `None`
mapped to invalid). -/
def debline_valid_spec (validIn : String) : Bool :=
  let valid := if ['#'].isPrefixOf validIn.data then
      String.mk (pystrip isSpace (validIn.data.filter (fun c => !(c == '#'))))
    else validIn
  if ("deb".data).isPrefixOf valid.data then
    (tokens valid.data).any (fun word => url_validator word)
  else if ("ppa:".data).isPrefixOf valid.data then valid.data.contains '/'
  else if (".flatpakrepo".data).isSuffixOf valid.data then false
  else if (tokens valid.data).length == 1 then url_validator valid
  else false

/-! ## Key fetching -/

/-- The outcome of calling a Python function: a return value or an uncaught
exception (named by its class). -/
inductive PyOutcome (α : Type) where
  | ok : α → PyOutcome α
  | raises : String → PyOutcome α
deriving DecidableEq

/-- `KEYSERVER_QUERY_URL` from `util.py`. -/
def KEYSERVER_QUERY_URL : String :=
  "http://keyserver.ubuntu.com/pks/lookup?op=get&search=0x"

/-- `fetch_key(fingerprint, query_url)` from `util.py`, with the network as
an oracle `net`: `net u = Except.ok data` means `request.urlopen(u)` returns
a response whose `read()` yields `data`; `Except.error ()` means it raises
`urllib.error.URLError`. The `try/except error.URLError` sets `req = None`;
the unconditional `req.read()` on `None` raises `AttributeError`. -/
def fetch_key (net : String → Except Unit String) (fingerprint : String)
    (query_url : String) : PyOutcome String :=
  let full_url := query_url ++ fingerprint
  let req : Option String := match net full_url with
    | Except.ok r => some r
    | Except.error _ => none
  match req with
  | some r => PyOutcome.ok r
  | none => PyOutcome.raises "AttributeError"

/-! ## strip_hashes -/

/-- One pass of the `while True` body of `strip_hashes`:
`line.strip('#')` then `line.strip()`. -/
def strip_hashes_step (line : List Char) : List Char :=
  pystrip isSpace (pystrip (fun c => c == '#') line)

/-- The `while True` loop of `strip_hashes` with explicit fuel: run the
body, exit when the result no longer starts with `'#'`; `none` when the
fuel runs out. `strip_hashes_fuel_sufficient` proves fuel `length + 1`
always suffices, so the loop terminates. -/
def strip_hashes_fuel : Nat → List Char → Option (List Char)
  | 0, _ => none
  | fuel + 1, line =>
    let l := strip_hashes_step line
    if ['#'].isPrefixOf l then strip_hashes_fuel fuel l else some l

/-- `strip_hashes(line)` from `util.py`, via the fueled loop at the fuel
bound that `strip_hashes_fuel_sufficient` proves sufficient. -/
def strip_hashes (line : List Char) : List Char :=
  (strip_hashes_fuel (line.length + 1) line).getD line

/-! ## Lemmas: generic helpers -/

theorem contains_true_iff {α : Type} [BEq α] [LawfulBEq α] (l : List α) (a : α) :
    l.contains a = true ↔ a ∈ l := List.elem_iff

theorem contains_false_iff {α : Type} [BEq α] [LawfulBEq α] (l : List α) (a : α) :
    l.contains a = false ↔ a ∉ l := by
  rw [Bool.eq_false_iff, Ne, contains_true_iff]

theorem emem_iff (key : String) (e : Entry) : emem key e = true ↔ key ∈ ekeys e :=
  contains_true_iff _ _

/-! ## Lemmas: compare_sources -/

/-- Characterization of `compare_sources`: it returns `true` iff every
non-excluded field present in either entry is present in both with the same
value. -/
theorem compare_sources_eq_true_iff (s1 s2 : Entry) (excl : List String) :
    compare_sources s1 s2 excl = true ↔
      ∀ key, (key ∈ ekeys s1 ∨ key ∈ ekeys s2) → key ∉ excl →
        key ∈ ekeys s1 ∧ key ∈ ekeys s2 ∧ eget s1 key = eget s2 key := by
  unfold compare_sources
  rw [Bool.and_eq_true, List.all_eq_true, List.all_eq_true]
  constructor
  · rintro ⟨hA, hB⟩ key hk hex
    have hexc : excl.contains key = false := (contains_false_iff _ _).mpr hex
    rcases hk with hk | hk
    · have h := hA key hk
      rw [hexc] at h
      simp only [Bool.false_eq_true, if_false] at h
      cases hm : emem key s2
      · rw [hm] at h; simp at h
      · rw [hm] at h
        simp only [if_true] at h
        exact ⟨hk, (emem_iff _ _).mp hm, by simpa using h⟩
    · have h := hB key hk
      rw [hexc] at h
      simp only [Bool.false_eq_true, if_false] at h
      cases hm : emem key s1
      · rw [hm] at h; simp at h
      · rw [hm] at h
        simp only [if_true] at h
        exact ⟨(emem_iff _ _).mp hm, hk, by simpa using h⟩
  · intro H
    constructor
    · intro key hk
      cases hexc : excl.contains key
      · obtain ⟨h1, h2, h3⟩ := H key (Or.inl hk) ((contains_false_iff _ _).mp hexc)
        simp [Bool.false_eq_true, (emem_iff key s2).mpr h2, h3]
      · simp
    · intro key hk
      cases hexc : excl.contains key
      · obtain ⟨h1, h2, h3⟩ := H key (Or.inr hk) ((contains_false_iff _ _).mp hexc)
        simp [Bool.false_eq_true, (emem_iff key s1).mpr h1, h3]
      · simp

/-! ## Lemmas: find_differences_sources -/

theorem dset_ne_nil (d : Diff) (key : String) (v : String × String) : dset d key v ≠ [] := by
  unfold dset
  split
  next h =>
    intro hc
    rw [List.map_eq_nil_iff] at hc
    subst hc
    simp at h
  next => simp

/-- A fold whose step either skips (when `cond`) or produces a non-empty
list ends empty iff it started empty and every step skipped. -/
theorem foldl_step_nil_iff (f : Diff → String → Diff) (cond : String → Bool)
    (hskip : ∀ acc k, cond k = true → f acc k = acc)
    (hne : ∀ acc k, cond k = false → f acc k ≠ [])
    (keys : List String) (acc : Diff) :
    keys.foldl f acc = [] ↔ acc = [] ∧ ∀ k ∈ keys, cond k = true := by
  induction keys generalizing acc with
  | nil => simp
  | cons k ks ih =>
    rw [List.foldl_cons, ih]
    cases hc : cond k
    · constructor
      · rintro ⟨hnil, _⟩
        exact absurd hnil (hne acc k hc)
      · rintro ⟨_, hall⟩
        have := hall k (List.mem_cons_self k ks)
        rw [hc] at this
        cases this
    · rw [hskip acc k hc]
      constructor
      · rintro ⟨h1, h2⟩
        refine ⟨h1, fun x hx => ?_⟩
        rcases List.mem_cons.mp hx with rfl | hx
        · exact hc
        · exact h2 x hx
      · rintro ⟨h1, h2⟩
        exact ⟨h1, fun x hx => h2 x (List.mem_cons_of_mem _ hx)⟩

/-- The Boolean a `compare_sources` loop computes for one key, rewritten
from nested `if`s to `||`/`&&`. -/
theorem ite_cond_eq (c m b : Bool) :
    (if c = true then true else if m = true then b else false) = (c || (m && b)) := by
  cases c <;> cases m <;> cases b <;> simp

/-- `find_differences_sources` is empty iff every key of either entry is
excluded or present in both with equal values. -/
theorem find_differences_nil_iff (s1 s2 : Entry) (excl : List String) :
    find_differences_sources s1 s2 excl = [] ↔
      (∀ k ∈ ekeys s1, (excl.contains k || (emem k s2 && (eget s1 k == eget s2 k))) = true) ∧
      (∀ k ∈ ekeys s2, (excl.contains k || (emem k s1 && (eget s1 k == eget s2 k))) = true) := by
  unfold find_differences_sources
  rw [foldl_step_nil_iff _
        (fun k => excl.contains k || (emem k s1 && (eget s1 k == eget s2 k)))
        (by
          intro acc k hc
          rw [Bool.or_eq_true] at hc
          rcases hc with h | h
          · rw [h, if_pos rfl]
          · cases he : excl.contains k
            · rw [if_neg Bool.false_ne_true, h, if_pos rfl]
            · rw [if_pos rfl])
        (by
          intro acc k hc
          rw [Bool.or_eq_false_iff] at hc
          rw [hc.1, hc.2, if_neg Bool.false_ne_true, if_neg Bool.false_ne_true]
          exact dset_ne_nil _ _ _),
      foldl_step_nil_iff _
        (fun k => excl.contains k || (emem k s2 && (eget s1 k == eget s2 k)))
        (by
          intro acc k hc
          rw [Bool.or_eq_true] at hc
          rcases hc with h | h
          · rw [h, if_pos rfl]
          · cases he : excl.contains k
            · rw [if_neg Bool.false_ne_true, h, if_pos rfl]
            · rw [if_pos rfl])
        (by
          intro acc k hc
          rw [Bool.or_eq_false_iff] at hc
          rw [hc.1, hc.2, if_neg Bool.false_ne_true, if_neg Bool.false_ne_true]
          exact dset_ne_nil _ _ _)]
  constructor
  · rintro ⟨⟨_, h1⟩, h2⟩
    exact ⟨h1, h2⟩
  · rintro ⟨h1, h2⟩
    exact ⟨⟨rfl, h1⟩, h2⟩

/-! ## Lemmas: entry get/set -/

theorem ekeys_cons (kv : String × String) (e : Entry) : ekeys (kv :: e) = kv.1 :: ekeys e := rfl

theorem eset_cons (kv : String × String) (e : Entry) (key v : String) :
    eset (kv :: e) key v = (if kv.1 == key then (kv.1, v) else kv) :: eset e key v := rfl

theorem eget_cons (kv : String × String) (e : Entry) (key : String) :
    eget (kv :: e) key = if kv.1 == key then kv.2 else eget e key := by
  cases h : kv.1 == key <;> simp [eget, List.find?_cons, h]

theorem ekeys_eset (e : Entry) (key v : String) : ekeys (eset e key v) = ekeys e := by
  induction e with
  | nil => rfl
  | cons kv e ih =>
    rw [eset_cons, ekeys_cons, ekeys_cons, ih]
    cases h : kv.1 == key <;> simp [h]

theorem emem_eset (e : Entry) (key v k : String) : emem k (eset e key v) = emem k e := by
  unfold emem
  rw [ekeys_eset]

theorem eget_eset_self (e : Entry) (key v : String) (h : emem key e = true) :
    eget (eset e key v) key = v := by
  rw [emem_iff] at h
  induction e with
  | nil => simp [ekeys] at h
  | cons kv e ih =>
    rw [eset_cons]
    cases hk : kv.1 == key
    · have hne : kv.1 ≠ key := by simpa using hk
      rw [ekeys_cons, List.mem_cons] at h
      simp only [Bool.false_eq_true, if_false, eget_cons, hk]
      apply ih
      rcases h with h | h
      · exact absurd h.symm hne
      · exact h
    · simp [eget_cons, hk]

theorem eget_eset_ne (e : Entry) (key v k : String) (h : key ≠ k) :
    eget (eset e key v) k = eget e k := by
  induction e with
  | nil => rfl
  | cons kv e ih =>
    rw [eset_cons, eget_cons, eget_cons, ih]
    cases hk : kv.1 == key
    · simp
    · have hkey : kv.1 = key := by simpa using hk
      have hfalse : (kv.1 == k) = false := by
        rw [beq_eq_false_iff_ne, hkey]
        exact h
      simp [hfalse]

/-! ## Lemmas: folds over entry keys -/

theorem foldl_preserves_ekeys (f : Entry → String → Entry)
    (hf : ∀ acc k, ekeys (f acc k) = ekeys acc) (keys : List String) (acc : Entry) :
    ekeys (keys.foldl f acc) = ekeys acc := by
  induction keys generalizing acc with
  | nil => rfl
  | cons k ks ih => rw [List.foldl_cons, ih, hf]

theorem foldl_preserves_eget (f : Entry → String → Entry) (key : String) :
    ∀ keys : List String, (∀ acc k, k ∈ keys → eget (f acc k) key = eget acc key) →
      ∀ acc, eget (keys.foldl f acc) key = eget acc key := by
  intro keys
  induction keys with
  | nil => intro _ _; rfl
  | cons k ks ih =>
    intro hf acc
    rw [List.foldl_cons, ih (fun a x hx => hf a x (List.mem_cons_of_mem _ hx)),
        hf acc k (List.mem_cons_self _ _)]

theorem nodup_split_of_mem {l : List String} {a : String} (hm : a ∈ l) (hn : l.Nodup) :
    ∃ s t, l = s ++ a :: t ∧ a ∉ s ∧ a ∉ t := by
  obtain ⟨s, t, rfl⟩ := List.append_of_mem hm
  rw [List.nodup_append] at hn
  obtain ⟨_, hat, hdisj⟩ := hn
  exact ⟨s, t, rfl, fun hs => hdisj hs (List.mem_cons_self _ _), (List.nodup_cons.mp hat).1⟩

/-- Value at `key` of a fold whose step leaves the value at `key` alone for
other keys: split at the unique occurrence of `key`. -/
theorem foldl_value_at_key (f : Entry → String → Entry) (key : String)
    (s t : List String) (hkt : key ∉ t)
    (hpres : ∀ acc k, k ≠ key → eget (f acc k) key = eget acc key)
    (acc : Entry) :
    eget ((s ++ key :: t).foldl f acc) key = eget (f (s.foldl f acc) key) key := by
  rw [List.foldl_append, List.foldl_cons]
  exact foldl_preserves_eget f key t
    (fun a x hx => hpres a x (fun hxy => hkt (hxy ▸ hx))) _

/-! ## Lemmas: tokens and deduplication -/

theorem tokensAux_all_space (s : List Char) (hs : ∀ c ∈ s, isSpace c = true) :
    ∀ acc : List Char,
      tokensAux s acc = if acc.isEmpty then [] else [String.mk acc.reverse] := by
  induction s with
  | nil => intro acc; rfl
  | cons c s ih =>
    intro acc
    have hc := hs c (List.mem_cons_self _ _)
    have hs' : ∀ x ∈ s, isSpace x = true := fun x hx => hs x (List.mem_cons_of_mem _ hx)
    cases hacc : acc.isEmpty <;> simp [tokensAux, hc, hacc, ih hs']

theorem tokensAux_append_sep (c : Char) (hc : isSpace c = true) (l2 : List Char) :
    ∀ (l1 acc : List Char),
      tokensAux (l1 ++ c :: l2) acc = tokensAux l1 acc ++ tokensAux l2 [] := by
  intro l1
  induction l1 with
  | nil =>
    intro acc
    cases hacc : acc.isEmpty <;> simp [tokensAux, hc, hacc]
  | cons x l1 ih =>
    intro acc
    cases hx : isSpace x
    · simp [tokensAux, hx, ih]
    · cases hacc : acc.isEmpty <;> simp [tokensAux, hx, hacc, ih]

theorem tokens_append_sep (c : Char) (hc : isSpace c = true) (l1 l2 : List Char) :
    tokens (l1 ++ c :: l2) = tokens l1 ++ tokens l2 :=
  tokensAux_append_sep c hc l2 l1 []

theorem tokensAux_append_all_space (s : List Char) (hs : ∀ c ∈ s, isSpace c = true) :
    ∀ (l acc : List Char), tokensAux (l ++ s) acc = tokensAux l acc := by
  intro l
  induction l with
  | nil =>
    intro acc
    rw [List.nil_append, tokensAux_all_space s hs acc, tokensAux]
  | cons x l ih =>
    intro acc
    cases hx : isSpace x
    · simp [tokensAux, hx, ih]
    · cases hacc : acc.isEmpty <;> simp [tokensAux, hx, hacc, ih]

theorem tokens_dropWhile_space (l : List Char) : tokens (l.dropWhile isSpace) = tokens l := by
  induction l with
  | nil => rfl
  | cons c l ih =>
    rw [List.dropWhile_cons]
    cases hc : isSpace c
    · simp [tokens, tokensAux, hc, ih]
    · simp [tokens, tokensAux, hc]
      exact ih

theorem tokens_pystrip (l : List Char) : tokens (pystrip isSpace l) = tokens l := by
  unfold pystrip
  have hsplit : l.dropWhile isSpace =
      ((l.dropWhile isSpace).reverse.dropWhile isSpace).reverse ++
        ((l.dropWhile isSpace).reverse.takeWhile isSpace).reverse := by
    conv_lhs =>
      rw [← List.reverse_reverse (l.dropWhile isSpace),
        ← List.takeWhile_append_dropWhile (p := isSpace) (l := (l.dropWhile isSpace).reverse)]
    rw [List.reverse_append]
  have h1 : tokens (((l.dropWhile isSpace).reverse.dropWhile isSpace).reverse ++
      ((l.dropWhile isSpace).reverse.takeWhile isSpace).reverse) =
      tokens (((l.dropWhile isSpace).reverse.dropWhile isSpace).reverse) :=
    tokensAux_append_all_space _
      (fun c hc => List.mem_takeWhile_imp (List.mem_reverse.mp hc)) _ []
  rw [← h1, ← hsplit, tokens_dropWhile_space]

theorem mem_dedupFoldl_acc (l : List String) :
    ∀ (acc : List String) (v : String), v ∈ acc →
      v ∈ l.foldl (fun newvals val =>
        if newvals.contains val then newvals else newvals ++ [val]) acc := by
  induction l with
  | nil => intro acc v hv; exact hv
  | cons x l ih =>
    intro acc v hv
    simp only [List.foldl_cons]
    apply ih
    by_cases h : acc.contains x = true
    · rw [if_pos h]; exact hv
    · rw [if_neg h]; exact List.mem_append_left _ hv

theorem mem_dedupFoldl_input (l : List String) :
    ∀ (acc : List String) (v : String), v ∈ l →
      v ∈ l.foldl (fun newvals val =>
        if newvals.contains val then newvals else newvals ++ [val]) acc := by
  induction l with
  | nil => intro _ v hv; cases hv
  | cons x l ih =>
    intro acc v hv
    simp only [List.foldl_cons]
    rcases List.mem_cons.mp hv with rfl | hv
    · apply mem_dedupFoldl_acc
      by_cases h : acc.contains v = true
      · rw [if_pos h]; exact (contains_true_iff _ _).mp h
      · rw [if_neg h]; exact List.mem_append_right _ (List.mem_singleton_self _)
    · exact ih _ v hv

theorem dedupFoldl_no_new (l : List String) :
    ∀ acc : List String, (∀ v ∈ l, v ∈ acc) →
      l.foldl (fun newvals val =>
        if newvals.contains val then newvals else newvals ++ [val]) acc = acc := by
  induction l with
  | nil => intro _ _; rfl
  | cons x l ih =>
    intro acc h
    simp only [List.foldl_cons]
    rw [if_pos ((contains_true_iff _ _).mpr (h x (List.mem_cons_self _ _)))]
    exact ih acc (fun v hv => h v (List.mem_cons_of_mem _ hv))

/-- Deduplicating `t1 ++ t2 ++ t2` equals deduplicating `t1 ++ t2`: the
double append the two merge loops perform is erased by the dedup pass. -/
theorem dedupTokens_append_self (t1 t2 : List String) :
    dedupTokens (t1 ++ t2 ++ t2) = dedupTokens (t1 ++ t2) := by
  unfold dedupTokens
  rw [List.foldl_append]
  exact dedupFoldl_no_new t2 _
    (fun v hv => mem_dedupFoldl_input _ _ v (List.mem_append_right _ hv))

/-- `dedup_value` of the twice-appended merge result, in terms of the two
original token lists. -/
theorem dedup_value_append_append (v1 v2 : String) :
    dedup_value (v1 ++ " " ++ v2 ++ " " ++ v2) =
      joinSpace (dedupTokens (tokens v1.data ++ tokens v2.data)) := by
  unfold dedup_value
  rw [tokens_pystrip]
  have hsp : (" " : String).data = [' '] := rfl
  have hd : (v1 ++ " " ++ v2 ++ " " ++ v2).data =
      v1.data ++ ' ' :: (v2.data ++ ' ' :: v2.data) := by
    simp [String.data_append, hsp]
  rw [hd, tokens_append_sep ' ' rfl, tokens_append_sep ' ' rfl, ← List.append_assoc,
    dedupTokens_append_self]

/-! ## Lemmas: combine_sources -/

theorem eget_map_dedup (e : Entry) (key : String) :
    eget (e.map (fun kv => (kv.1, dedup_value kv.2))) key = dedup_value (eget e key) := by
  induction e with
  | nil => rfl
  | cons kv e ih =>
    rw [List.map_cons, eget_cons, eget_cons]
    cases h : kv.1 == key <;> simp [h, ih]

theorem combine_step1_pres (source2 : Entry) (key : String) :
    ∀ (acc : Entry) (k : String), k ≠ key →
      eget (if merge_skip.contains k then acc
        else if emem k source2 then eset acc k (eget acc k ++ " " ++ eget source2 k)
        else acc) key = eget acc key := by
  intro acc k hk
  by_cases hs : merge_skip.contains k = true
  · rw [if_pos hs]
  · rw [if_neg hs]
    by_cases hm : emem k source2 = true
    · rw [if_pos hm]
      exact eget_eset_ne _ _ _ _ hk
    · rw [if_neg hm]

theorem combine_step1_keys (source2 : Entry) :
    ∀ (acc : Entry) (k : String),
      ekeys (if merge_skip.contains k then acc
        else if emem k source2 then eset acc k (eget acc k ++ " " ++ eget source2 k)
        else acc) = ekeys acc := by
  intro acc k
  by_cases hs : merge_skip.contains k = true
  · rw [if_pos hs]
  · rw [if_neg hs]
    by_cases hm : emem k source2 = true
    · rw [if_pos hm, ekeys_eset]
    · rw [if_neg hm]

theorem combine_step2_pres (source2 : Entry) (key : String) :
    ∀ (acc : Entry) (k : String), k ≠ key →
      eget (if merge_skip.contains k then acc
        else if emem k acc then eset acc k (eget acc k ++ " " ++ eget source2 k)
        else acc) key = eget acc key := by
  intro acc k hk
  by_cases hs : merge_skip.contains k = true
  · rw [if_pos hs]
  · rw [if_neg hs]
    by_cases hm : emem k acc = true
    · rw [if_pos hm]
      exact eget_eset_ne _ _ _ _ hk
    · rw [if_neg hm]

theorem combine_step2_keys (source2 : Entry) :
    ∀ (acc : Entry) (k : String),
      ekeys (if merge_skip.contains k then acc
        else if emem k acc then eset acc k (eget acc k ++ " " ++ eget source2 k)
        else acc) = ekeys acc := by
  intro acc k
  by_cases hs : merge_skip.contains k = true
  · rw [if_pos hs]
  · rw [if_neg hs]
    by_cases hm : emem k acc = true
    · rw [if_pos hm, ekeys_eset]
    · rw [if_neg hm]

theorem emem_of_ekeys_eq {e e' : Entry} (h : ekeys e = ekeys e') (k : String) :
    emem k e = emem k e' := by
  unfold emem
  rw [h]

/-- After the first appending loop, a non-skipped key present in both
entries holds `source1[key] + ' ' + source2[key]`. -/
theorem combine_fold1_value (source1 source2 : Entry) (key : String)
    (h1 : (ekeys source1).Nodup) (hskip : merge_skip.contains key = false)
    (hm1 : emem key source1 = true) (hm2 : emem key source2 = true) :
    eget ((ekeys source1).foldl (fun s1 k =>
      if merge_skip.contains k then s1
      else if emem k source2 then eset s1 k (eget s1 k ++ " " ++ eget source2 k)
      else s1) source1) key = eget source1 key ++ " " ++ eget source2 key := by
  obtain ⟨s, t, hsplit, hks, hkt⟩ := nodup_split_of_mem ((emem_iff _ _).mp hm1) h1
  rw [hsplit, foldl_value_at_key _ _ s t hkt (combine_step1_pres source2 key)]
  have hacckeys : ekeys (s.foldl (fun s1 k =>
      if merge_skip.contains k then s1
      else if emem k source2 then eset s1 k (eget s1 k ++ " " ++ eget source2 k)
      else s1) source1) = ekeys source1 :=
    foldl_preserves_ekeys _ (combine_step1_keys source2) s source1
  have haccget : eget (s.foldl (fun s1 k =>
      if merge_skip.contains k then s1
      else if emem k source2 then eset s1 k (eget s1 k ++ " " ++ eget source2 k)
      else s1) source1) key = eget source1 key :=
    foldl_preserves_eget _ key s
      (fun a x hx => combine_step1_pres source2 key a x (fun he => hks (he ▸ hx))) source1
  rw [if_neg (by rw [hskip]; exact Bool.false_ne_true), if_pos (show emem key source2 = true from hm2),
    eget_eset_self _ _ _ (by rw [emem_of_ekeys_eq hacckeys key]; exact hm1), haccget]

/-- After the second appending loop, a non-skipped key present in the
accumulated entry and in `source2` gets `source2[key]` appended again. -/
theorem combine_fold2_value (source2 acc0 : Entry) (key : String)
    (h2 : (ekeys source2).Nodup) (hskip : merge_skip.contains key = false)
    (hmem : emem key acc0 = true) (hm2 : emem key source2 = true) :
    eget ((ekeys source2).foldl (fun s1 k =>
      if merge_skip.contains k then s1
      else if emem k s1 then eset s1 k (eget s1 k ++ " " ++ eget source2 k)
      else s1) acc0) key = eget acc0 key ++ " " ++ eget source2 key := by
  obtain ⟨s, t, hsplit, hks, hkt⟩ := nodup_split_of_mem ((emem_iff _ _).mp hm2) h2
  rw [hsplit, foldl_value_at_key _ _ s t hkt (combine_step2_pres source2 key)]
  have hacckeys : ekeys (s.foldl (fun s1 k =>
      if merge_skip.contains k then s1
      else if emem k s1 then eset s1 k (eget s1 k ++ " " ++ eget source2 k)
      else s1) acc0) = ekeys acc0 :=
    foldl_preserves_ekeys _ (combine_step2_keys source2) s acc0
  have haccmem : emem key (s.foldl (fun s1 k =>
      if merge_skip.contains k then s1
      else if emem k s1 then eset s1 k (eget s1 k ++ " " ++ eget source2 k)
      else s1) acc0) = true := by
    rw [emem_of_ekeys_eq hacckeys key]
    exact hmem
  have haccget : eget (s.foldl (fun s1 k =>
      if merge_skip.contains k then s1
      else if emem k s1 then eset s1 k (eget s1 k ++ " " ++ eget source2 k)
      else s1) acc0) key = eget acc0 key :=
    foldl_preserves_eget _ key s
      (fun a x hx => combine_step2_pres source2 key a x (fun he => hks (he ▸ hx))) acc0
  rw [if_neg (by rw [hskip]; exact Bool.false_ne_true), if_pos haccmem,
    eget_eset_self _ _ _ haccmem, haccget]

/-- The value of a non-skipped shared key in the first entry after
`combine_sources`, before rewriting the double append away. -/
theorem combine_fst_value (source1 source2 : Entry) (key : String)
    (h1 : (ekeys source1).Nodup) (h2 : (ekeys source2).Nodup)
    (hskip : merge_skip.contains key = false)
    (hm1 : emem key source1 = true) (hm2 : emem key source2 = true) :
    eget ((combine_sources source1 source2).1) key =
      dedup_value (eget source1 key ++ " " ++ eget source2 key ++ " " ++ eget source2 key) := by
  simp only [combine_sources]
  rw [eget_map_dedup]
  rw [combine_fold2_value source2 _ key h2 hskip
    (by
      rw [emem_of_ekeys_eq (foldl_preserves_ekeys _ (combine_step1_keys source2)
        (ekeys source1) source1) key]
      exact hm1) hm2]
  rw [combine_fold1_value source1 source2 key h1 hskip hm1 hm2]

/-- A key of the skip tuple is never appended to: after `combine_sources`
its value in the first entry is just the deduplication of its original
value. -/
theorem combine_fst_skip_value (source1 source2 : Entry) (key : String)
    (hskip : merge_skip.contains key = true) :
    eget ((combine_sources source1 source2).1) key = dedup_value (eget source1 key) := by
  simp only [combine_sources]
  rw [eget_map_dedup]
  rw [foldl_preserves_eget _ key (ekeys source2)
    (fun a k _ => by
      by_cases hk : k = key
      · subst hk
        rw [if_pos hskip]
      · exact combine_step2_pres source2 key a k hk) _]
  rw [foldl_preserves_eget _ key (ekeys source1)
    (fun a k _ => by
      by_cases hk : k = key
      · subst hk
        rw [if_pos hskip]
      · exact combine_step1_pres source2 key a k hk) _]

/-! ## Lemmas: strip_hashes -/

theorem isPrefixOf_hash_head (l : List Char) :
    ['#'].isPrefixOf l = true ↔ l.head? = some '#' := by
  cases l with
  | nil => simp [List.isPrefixOf]
  | cons c l =>
    simp only [List.isPrefixOf, List.head?_cons, Option.some.injEq, Bool.and_eq_true,
      beq_iff_eq]
    constructor
    · rintro ⟨h1, _⟩
      exact h1.symm
    · rintro rfl
      exact ⟨rfl, by simp [List.isPrefixOf]⟩

/-- The right-strip part of `pystrip` is a prefix: stripping a suffix then
re-appending it recovers the list. -/
theorem rstrip_prefix_split (p : Char → Bool) (m : List Char) :
    (m.reverse.dropWhile p).reverse ++ (m.reverse.takeWhile p).reverse = m := by
  rw [← List.reverse_append, List.takeWhile_append_dropWhile, List.reverse_reverse]

theorem rstrip_length_le (p : Char → Bool) (m : List Char) :
    ((m.reverse.dropWhile p).reverse).length ≤ m.length := by
  conv_rhs => rw [← rstrip_prefix_split p m]
  rw [List.length_append]
  exact Nat.le_add_right _ _

theorem rstrip_head_eq (p : Char → Bool) (m : List Char)
    (h : (m.reverse.dropWhile p).reverse ≠ []) :
    ((m.reverse.dropWhile p).reverse).head? = m.head? := by
  conv_rhs => rw [← rstrip_prefix_split p m]
  cases hx : (m.reverse.dropWhile p).reverse with
  | nil => exact absurd hx h
  | cons x xs => rw [List.cons_append]; rfl

theorem pystrip_length_le (p : Char → Bool) (l : List Char) :
    (pystrip p l).length ≤ l.length := by
  unfold pystrip
  exact le_trans (rstrip_length_le p _) ((List.dropWhile_sublist p).length_le)

/-- When `l` has no strippable prefix, `pystrip` only strips the suffix. -/
theorem pystrip_no_leading (p : Char → Bool) (m : List Char) (h : m.dropWhile p = m) :
    pystrip p m = (m.reverse.dropWhile p).reverse := by
  unfold pystrip
  rw [h]

theorem pystrip_head_not (p : Char → Bool) (l : List Char) (c : Char)
    (h : (pystrip p l).head? = some c) : p c = false := by
  unfold pystrip at h
  have hne : ((l.dropWhile p).reverse.dropWhile p).reverse ≠ [] := by
    intro h0
    rw [h0] at h
    cases h
  rw [rstrip_head_eq p (l.dropWhile p) hne] at h
  have hd := List.head?_dropWhile_not p l
  rw [h] at hd
  exact hd

theorem pystrip_getLast_not (p : Char → Bool) (l : List Char) (c : Char)
    (h : (pystrip p l).getLast? = some c) : p c = false := by
  unfold pystrip at h
  rw [List.getLast?_reverse] at h
  have hd := List.head?_dropWhile_not p (l.dropWhile p).reverse
  rw [h] at hd
  exact hd

/-- The loop body of `strip_hashes` strictly shrinks the line whenever its
result still starts with `'#'` (so the loop would run again). -/
theorem strip_hashes_step_lt (line : List Char)
    (h : ['#'].isPrefixOf (strip_hashes_step line) = true) :
    (strip_hashes_step line).length < line.length := by
  rw [isPrefixOf_hash_head] at h
  cases line with
  | nil => cases h
  | cons c rest =>
    by_cases hc : (c == '#') = true
    · -- leading '#': the hash strip already drops the head
      have h1 : (pystrip (fun c => c == '#') (c :: rest)).length ≤ rest.length := by
        unfold pystrip
        rw [List.dropWhile_cons, if_pos hc]
        exact le_trans (rstrip_length_le _ _) ((List.dropWhile_sublist _).length_le)
      have h2 := pystrip_length_le isSpace (pystrip (fun c => c == '#') (c :: rest))
      have h3 : (strip_hashes_step (c :: rest)).length ≤ rest.length := le_trans h2 h1
      rw [List.length_cons]
      omega
    · -- no leading '#': the head survives the hash strip
      have hdrop : (c :: rest).dropWhile (fun c => c == '#') = c :: rest := by
        rw [List.dropWhile_cons, if_neg hc]
      have hmne : pystrip (fun c => c == '#') (c :: rest) ≠ [] := by
        intro h0
        have hstep0 : strip_hashes_step (c :: rest) = [] := by
          unfold strip_hashes_step
          rw [h0]
          rfl
        rw [hstep0] at h
        cases h
      have hmhead : (pystrip (fun c => c == '#') (c :: rest)).head? = some c := by
        rw [pystrip_no_leading _ _ hdrop] at hmne ⊢
        rw [rstrip_head_eq _ _ hmne]
        rfl
      by_cases hsp : isSpace c = true
      · -- whitespace at the head: the whitespace strip drops it
        obtain ⟨m', hm'⟩ : ∃ m', pystrip (fun c => c == '#') (c :: rest) = c :: m' := by
          cases hx : pystrip (fun c => c == '#') (c :: rest) with
          | nil => exact absurd hx hmne
          | cons x xs =>
            rw [hx, List.head?_cons] at hmhead
            exact ⟨xs, by rw [Option.some.inj hmhead]⟩
        have hlen1 : (strip_hashes_step (c :: rest)).length ≤ m'.length := by
          unfold strip_hashes_step
          rw [hm']
          unfold pystrip
          rw [List.dropWhile_cons, if_pos hsp]
          exact le_trans (rstrip_length_le _ _) ((List.dropWhile_sublist _).length_le)
        have hlen2 : (c :: m').length ≤ (c :: rest).length := by
          rw [← hm']
          exact pystrip_length_le _ _
        rw [List.length_cons, List.length_cons] at hlen2
        rw [List.length_cons]
        omega
      · -- the head is neither '#' nor whitespace, yet the result starts
        -- with '#': impossible
        exfalso
        have hMdrop : (pystrip (fun c => c == '#') (c :: rest)).dropWhile isSpace =
            pystrip (fun c => c == '#') (c :: rest) := by
          cases hx : pystrip (fun c => c == '#') (c :: rest) with
          | nil => rfl
          | cons x xs =>
            rw [hx, List.head?_cons] at hmhead
            have hxc : x = c := Option.some.inj hmhead
            subst hxc
            rw [List.dropWhile_cons, if_neg hsp]
        have hne2 : strip_hashes_step (c :: rest) ≠ [] := by
          intro h0
          rw [h0] at h
          cases h
        have hstep : strip_hashes_step (c :: rest) =
            ((pystrip (fun c => c == '#') (c :: rest)).reverse.dropWhile isSpace).reverse := by
          show pystrip isSpace (pystrip (fun c => c == '#') (c :: rest)) = _
          exact pystrip_no_leading isSpace _ hMdrop
        have hh : (strip_hashes_step (c :: rest)).head? =
            (pystrip (fun c => c == '#') (c :: rest)).head? := by
          rw [hstep]
          apply rstrip_head_eq
          rw [← hstep]
          exact hne2
        rw [h, hmhead] at hh
        have hch : c = '#' := (Option.some.inj hh).symm
        exact hc (by rw [hch]; exact beq_self_eq_true _)

theorem strip_hashes_fuel_mono : ∀ (n m : Nat) (line : List Char), n ≤ m →
    (strip_hashes_fuel n line).isSome = true →
    strip_hashes_fuel m line = strip_hashes_fuel n line := by
  intro n
  induction n with
  | zero =>
    intro m line _ hs
    simp [strip_hashes_fuel] at hs
  | succ n ih =>
    intro m line hnm hs
    cases m with
    | zero => exact absurd hnm (by omega)
    | succ m =>
      simp only [strip_hashes_fuel] at hs ⊢
      by_cases hp : ['#'].isPrefixOf (strip_hashes_step line) = true
      · rw [if_pos hp] at hs
        rw [if_pos hp, if_pos hp]
        exact ih m _ (Nat.le_of_succ_le_succ hnm) hs
      · rw [if_neg hp, if_neg hp]

theorem strip_hashes_fuel_sufficient : ∀ (N : Nat) (line : List Char), line.length ≤ N →
    (strip_hashes_fuel (line.length + 1) line).isSome = true := by
  intro N
  induction N with
  | zero =>
    intro line hlen
    have h0 : line = [] := List.length_eq_zero.mp (Nat.le_zero.mp hlen)
    subst h0
    rfl
  | succ N ih =>
    intro line hlen
    simp only [strip_hashes_fuel]
    by_cases hp : ['#'].isPrefixOf (strip_hashes_step line) = true
    · rw [if_pos hp]
      have hlt := strip_hashes_step_lt line hp
      have hs := ih (strip_hashes_step line) (by omega)
      rw [strip_hashes_fuel_mono ((strip_hashes_step line).length + 1) line.length
        (strip_hashes_step line) (by omega) hs]
      exact hs
    · rw [if_neg hp]
      rfl

/-- Whatever the fueled loop returns does not start with `'#'` and is the
whitespace-strip of something. -/
theorem strip_hashes_fuel_some : ∀ (n : Nat) (line r : List Char),
    strip_hashes_fuel n line = some r →
    ['#'].isPrefixOf r = false ∧ ∃ y, r = pystrip isSpace y := by
  intro n
  induction n with
  | zero =>
    intro line r h
    simp [strip_hashes_fuel] at h
  | succ n ih =>
    intro line r h
    simp only [strip_hashes_fuel] at h
    by_cases hp : ['#'].isPrefixOf (strip_hashes_step line) = true
    · rw [if_pos hp] at h
      exact ih _ _ h
    · rw [if_neg hp] at h
      have hr : strip_hashes_step line = r := Option.some.inj h
      subst hr
      exact ⟨Bool.eq_false_iff.mpr hp, pystrip (fun c => c == '#') line, rfl⟩

/-! ## Lemmas: url_validator -/

theorem str_isEmpty_true_iff (s : String) : s.data.isEmpty = true ↔ s = "" := by
  rw [List.isEmpty_iff]
  constructor
  · intro h
    apply String.ext
    rw [h]
  · intro h
    rw [h]

theorem str_isEmpty_false_iff (s : String) : s.data.isEmpty = false ↔ s ≠ "" := by
  rw [Bool.eq_false_iff, Ne, Ne]
  exact not_congr (str_isEmpty_true_iff s)

/-- `url_validator` on a successful parse, as one Boolean expression. -/
theorem url_validator_some_eq (url : String) (r : ParseResult)
    (hr : urlparse url = some r) :
    url_validator url =
      (!r.scheme.data.isEmpty && !(r.scheme == "x-repolib-name") &&
        (!r.netloc.data.isEmpty || !r.path.data.isEmpty)) := by
  unfold url_validator
  rw [hr]
  cases b1 : r.scheme.data.isEmpty <;>
    cases b2 : r.scheme == "x-repolib-name" <;>
      cases b3 : r.netloc.data.isEmpty <;>
        cases b4 : r.path.data.isEmpty <;>
          simp [b1, b2, b3, b4]

/-! ## Claim theorems -/

/-- C7 counterexample: on the line "deb onlytext" (a `deb` line with no
URL-valid token) `validate_debline` falls off the end of the function and
returns Python `None` — neither `True` nor `False` — so it does not
always return a boolean. -/
theorem validate_debline_nonbool_cex :
    validate_debline "deb onlytext" = none ∧
    validate_debline "deb onlytext" ≠ some true ∧
    validate_debline "deb onlytext" ≠ some false :=
  ⟨rfl, by decide, by decide⟩

/-- C7 (amended): after stripping a leading comment, `validate_debline`
classifies lines exactly as claimed when Python's falsy `None`
fall-through (a `deb` line with no URL-valid token, a `ppa:` line without
a slash) counts as invalid: its truthy result agrees everywhere with the
spec classification `debline_valid_spec`, and the claim's examples hold,
with "deb onlytext" yielding `None` rather than `False`. -/
theorem validate_debline_classification (line : String) :
    ((validate_debline line).getD false = debline_valid_spec line) ∧
    validate_debline "deb https://example.com/ubuntu focal main" = some true ∧
    validate_debline "# deb https://example.com/ubuntu focal main" = some true ∧
    validate_debline "deb onlytext" = none ∧
    validate_debline "something.flatpakrepo" = some false := by
  refine ⟨?_, rfl, rfl, rfl, rfl⟩
  unfold validate_debline debline_valid_spec
  generalize (if ['#'].isPrefixOf line.data = true
      then String.mk (pystrip isSpace (line.data.filter (fun c => !(c == '#')))) else line) = v
  by_cases h1 : ("deb".data).isPrefixOf v.data = true
  · rw [if_pos h1, if_pos h1]
    by_cases h2 : (tokens v.data).any (fun word => url_validator word) = true
    · rw [if_pos h2, h2]
      rfl
    · rw [if_neg h2, Bool.eq_false_iff.mpr h2]
      rfl
  · rw [if_neg h1, if_neg h1]
    by_cases h3 : ("ppa:".data).isPrefixOf v.data = true
    · rw [if_pos h3, if_pos h3]
      by_cases h4 : v.data.contains '/' = true
      · rw [if_pos h4, h4]
        rfl
      · rw [if_neg h4, Bool.eq_false_iff.mpr h4]
        rfl
    · rw [if_neg h3, if_neg h3]
      by_cases h5 : (".flatpakrepo".data).isSuffixOf v.data = true
      · rw [if_pos h5, if_pos h5]
        rfl
      · rw [if_neg h5, if_neg h5]
        by_cases h6 : ((tokens v.data).length == 1) = true
        · rw [if_pos h6, if_pos h6]
          rfl
        · rw [if_neg h6, if_neg h6]
          rfl

/-- C8: `url_validator` is a total Boolean function (the bare `except`
maps the modelled parse failure, `urlparse = none`, to `false`, so no
exception escapes); on a successful parse it returns true iff the scheme
is non-empty, differs from the sentinel "x-repolib-name", and an
authority or a path is present; and the claim's four examples hold. -/
theorem url_validator_spec (url : String) :
    (urlparse url = none → url_validator url = false) ∧
    (∀ r, urlparse url = some r →
      (url_validator url = true ↔
        (r.scheme ≠ "" ∧ r.scheme ≠ "x-repolib-name" ∧
          (r.netloc ≠ "" ∨ r.path ≠ "")))) ∧
    url_validator "https://example.com/repo" = true ∧
    url_validator "file:///srv/repo" = true ∧
    url_validator "not-a-url" = false ∧
    url_validator "" = false := by
  refine ⟨?_, ?_, rfl, rfl, rfl, rfl⟩
  · intro h
    unfold url_validator
    rw [h]
  · intro r hr
    rw [url_validator_some_eq url r hr, Bool.and_eq_true, Bool.and_eq_true,
      Bool.or_eq_true, Bool.not_eq_true', Bool.not_eq_true', Bool.not_eq_true',
      Bool.not_eq_true', str_isEmpty_false_iff, str_isEmpty_false_iff,
      str_isEmpty_false_iff, beq_eq_false_iff_ne]
    exact and_assoc

/-- C8 witness: the general classification applied at
"https://example.com/repo", whose parse result is concrete. -/
theorem url_validator_spec_witness : url_validator "https://example.com/repo" = true := by
  have h := (url_validator_spec "https://example.com/repo").2.1
    (ParseResult.mk "https" "example.com" "/repo" "" "" "") rfl
  exact h.mpr (by decide)

/-- C9 counterexample: with a network oracle on which `urlopen` raises
`URLError`, `fetch_key` does not return "no response" to its caller — the
unguarded `req.read()` on `None` raises `AttributeError`, which
propagates. -/
theorem fetch_key_attributeerror_cex :
    fetch_key (fun _ => Except.error ()) "ABCDEF0123456789" KEYSERVER_QUERY_URL =
      PyOutcome.raises "AttributeError" := rfl

/-- C9 (amended): `fetch_key` catches and suppresses the network-layer
`URLError` at the fetch boundary (no `URLError` ever reaches the caller;
on success the key data is returned), but on network failure the
subsequent unguarded read of the absent response raises `AttributeError`
to the caller instead of returning. -/
theorem fetch_key_error_flow (net : String → Except Unit String)
    (fingerprint query_url : String) :
    (fetch_key net fingerprint query_url ≠ PyOutcome.raises "URLError") ∧
    (net (query_url ++ fingerprint) = Except.error () →
      fetch_key net fingerprint query_url = PyOutcome.raises "AttributeError") ∧
    (∀ data, net (query_url ++ fingerprint) = Except.ok data →
      fetch_key net fingerprint query_url = PyOutcome.ok data) := by
  refine ⟨?_, ?_, ?_⟩
  · cases hn : net (query_url ++ fingerprint) with
    | ok r => simp [fetch_key, hn]
    | error e => simp [fetch_key, hn]
  · intro h
    simp [fetch_key, h]
  · intro data h
    simp [fetch_key, h]

/-- C9 witness: a failing network produces the AttributeError; a
succeeding one returns the data. -/
theorem fetch_key_error_flow_witness :
    fetch_key (fun _ => Except.error ()) "ABC" KEYSERVER_QUERY_URL =
      PyOutcome.raises "AttributeError" ∧
    fetch_key (fun _ => Except.ok "KEYDATA") "ABC" KEYSERVER_QUERY_URL =
      PyOutcome.ok "KEYDATA" :=
  ⟨(fetch_key_error_flow (fun _ => Except.error ()) "ABC" KEYSERVER_QUERY_URL).2.1 rfl,
   (fetch_key_error_flow (fun _ => Except.ok "KEYDATA") "ABC" KEYSERVER_QUERY_URL).2.2
     "KEYDATA" rfl⟩

/-- C10: the `while True` loop of `strip_hashes` terminates — the fueled
loop reaches its exit within `length + 1` iterations and agrees with
`strip_hashes` — and the result does not start with `'#'` and has no
leading or trailing whitespace. -/
theorem strip_hashes_terminates_clean (line : List Char) :
    strip_hashes_fuel (line.length + 1) line = some (strip_hashes line) ∧
    ['#'].isPrefixOf (strip_hashes line) = false ∧
    (strip_hashes line).head?.all (fun c => !isSpace c) = true ∧
    (strip_hashes line).getLast?.all (fun c => !isSpace c) = true := by
  have hs := strip_hashes_fuel_sufficient line.length line (le_refl _)
  obtain ⟨r, hr⟩ := Option.isSome_iff_exists.mp hs
  have hval : strip_hashes line = r := by
    unfold strip_hashes
    rw [hr]
    rfl
  obtain ⟨hpre, y, hy⟩ := strip_hashes_fuel_some _ _ _ hr
  refine ⟨by rw [hval]; exact hr, by rw [hval]; exact hpre, ?_, ?_⟩
  · rw [hval, hy]
    cases hh : (pystrip isSpace y).head? with
    | none => rfl
    | some c =>
      have hc := pystrip_head_not isSpace y c hh
      simp [Option.all, hc]
  · rw [hval, hy]
    cases hh : (pystrip isSpace y).getLast? with
    | none => rfl
    | some c =>
      have hc := pystrip_getLast_not isSpace y c hh
      simp [Option.all, hc]

/-- C1: `compare_sources(a, b, E)` returns true iff, for every field
present in either entry and not in `E`, both entries contain that field
with an identical string value; a field present in one entry but absent
from the other (and not excluded) makes the result false. -/
theorem compare_sources_spec (a b : Entry) (excl : List String) :
    compare_sources a b excl = true ↔
      ∀ key, (key ∈ ekeys a ∨ key ∈ ekeys b) → key ∉ excl →
        key ∈ ekeys a ∧ key ∈ ekeys b ∧ eget a key = eget b key :=
  compare_sources_eq_true_iff a b excl

/-- C2: `compare_sources` is symmetric: `compare_sources a b E =
compare_sources b a E` for all entries and exclusion sets. -/
theorem compare_sources_symm (a b : Entry) (excl : List String) :
    compare_sources a b excl = compare_sources b a excl := by
  rw [Bool.eq_iff_iff, compare_sources_eq_true_iff, compare_sources_eq_true_iff]
  constructor
  · intro H key hk hex
    obtain ⟨h1, h2, h3⟩ := H key hk.symm hex
    exact ⟨h2, h1, h3.symm⟩
  · intro H key hk hex
    obtain ⟨h1, h2, h3⟩ := H key hk.symm hex
    exact ⟨h2, h1, h3.symm⟩

/-- C3 (code bug): on entries differing at a shared non-excluded key, the
first loop of `find_differences_sources` records the correct pair
`("x", "y")` but immediately overwrites it with `("x", "")` (the
assignment is not under an `else`), and the second loop overwrites that
with `("", "y")`: the differing field ends mapped to a pair with a blank
in place of `source1`'s actual value, contradicting the claim and the
function's own docstring. -/
theorem find_differences_blank_pair :
    find_differences_sources [("Suites", "x")] [("Suites", "y")] [] =
      [("Suites", ("", "y"))] := by
  rfl

/-- C4: `compare_sources a b E` returns true iff
`find_differences_sources a b E` returns an empty mapping. -/
theorem compare_iff_diff_empty (a b : Entry) (excl : List String) :
    compare_sources a b excl = true ↔ find_differences_sources a b excl = [] := by
  rw [find_differences_nil_iff]
  unfold compare_sources
  rw [Bool.and_eq_true, List.all_eq_true, List.all_eq_true]
  simp only [ite_cond_eq]

/-- C5: after `combine_sources(a, b)`, every field outside the identity
skip tuple that is present in both entries holds in `a` the
order-preserving, case-sensitive whitespace-token deduplication of `a`'s
original tokens followed by `b`'s tokens, joined by single spaces. -/
theorem combine_sources_union_tokens (a b : Entry) (key : String)
    (h1 : (ekeys a).Nodup) (h2 : (ekeys b).Nodup)
    (hskip : merge_skip.contains key = false)
    (hm1 : emem key a = true) (hm2 : emem key b = true) :
    eget ((combine_sources a b).1) key =
      joinSpace (dedupTokens (tokens (eget a key).data ++ tokens (eget b key).data)) := by
  rw [combine_fst_value a b key h1 h2 hskip hm1 hm2, dedup_value_append_append]

/-- C5 witness: entry A with Suites "focal focal-updates" merged with
entry B with Suites "focal jammy" leaves A's Suites as
"focal focal-updates jammy". -/
theorem combine_sources_union_tokens_witness :
    eget ((combine_sources [("Suites", "focal focal-updates")]
      [("Suites", "focal jammy")]).1) "Suites" = "focal focal-updates jammy" := by
  rw [combine_sources_union_tokens [("Suites", "focal focal-updates")]
    [("Suites", "focal jammy")] "Suites" (by decide) (by decide) (by decide)
    (by decide) (by decide)]
  rfl

/-- C6 counterexample: `combine_sources` does merge the field
`X-Repolib-Ident` (the code's skip tuple holds `X-Repolib-ID`, not
`X-Repolib-Ident`), and it token-deduplicates every field of the first
entry including `Types`, so the named identity fields are not left
unchanged. -/
theorem combine_sources_identity_cex :
    eget ((combine_sources [("X-Repolib-Ident", "id"), ("Types", "deb deb")]
        [("X-Repolib-Ident", "other")]).1) "X-Repolib-Ident" = "id other" ∧
    eget ((combine_sources [("X-Repolib-Ident", "id"), ("Types", "deb deb")]
        [("X-Repolib-Ident", "other")]).1) "Types" = "deb" ∧
    ("id other" : String) ≠ "id" ∧ ("deb" : String) ≠ "deb deb" :=
  ⟨rfl, rfl, by decide, by decide⟩

/-- C6 (amended): `combine_sources` never appends the second entry's value
to the fields of the skip tuple {X-Repolib-Name, X-Repolib-ID, Enabled,
Types} of the first entry; after the merge such a field holds exactly the
whitespace-token deduplication of the first entry's original value, hence
is unchanged whenever that value was already deduplicated and
single-spaced. -/
theorem combine_sources_skip_fields (a b : Entry) (key : String)
    (hskip : merge_skip.contains key = true) :
    eget ((combine_sources a b).1) key = dedup_value (eget a key) :=
  combine_fst_skip_value a b key hskip

/-- C6 witness: an already-normalized `Enabled` field of the first entry
is unchanged by the merge even when the second entry disagrees. -/
theorem combine_sources_skip_fields_witness :
    eget ((combine_sources [("Enabled", "yes")] [("Enabled", "no")]).1) "Enabled" = "yes" := by
  rw [combine_sources_skip_fields [("Enabled", "yes")] [("Enabled", "no")] "Enabled" (by decide)]
  rfl

end Repolib
